import Mathlib

/-!
Verification of `scrape_images.py`: a resumable discovery-and-download
pipeline.  The definitions below are a shallow embedding of the source:
the checkpoint store (`atomic_write`, `load_checkpoint`, `save_checkpoint`),
the discovery loop (`scrape_slugs`), the fetch worker (`download`) and the
download coordinator (the body of `main`).  File contents are lists of
characters, payloads are lists of bytes, and effects (filesystem, network,
raised exceptions) are made explicit as state passing and oracles.
-/

namespace Piixes

/-! ## Configuration constants (source lines 16-20) -/

def MAX_RETRIES : Nat := 4

def BACKOFF_BASE : ℚ := 3 / 2

def CHECKPOINT_INTERVAL : Nat := 5

/-! ## Checkpoint store: file contents

A file's content is a `List Char`; a filesystem maps a path to
`Option (List Char)` (`none` = no file at that path). -/

/-- A whitespace character in the sense of Python's `str.strip()` with no
arguments, which strips Unicode whitespace: U+0009-U+000D, U+001C-U+001F,
space, U+0085, U+00A0, U+1680, U+2000-U+200A, U+2028, U+2029, U+202F,
U+205F and U+3000 (the characters for which `str.isspace()` holds). -/
def pyWhitespace (c : Char) : Bool :=
  (decide ('\x09' ≤ c) && decide (c ≤ '\x0d')) ||
  (decide ('\x1c' ≤ c) && decide (c ≤ '\x1f')) ||
  (c == '\x20') || (c == '\x85') || (c == '\xa0') || (c == '\u1680') ||
  (decide ('\u2000' ≤ c) && decide (c ≤ '\u200a')) ||
  (c == '\u2028') || (c == '\u2029') || (c == '\u202f') || (c == '\u205f') ||
  (c == '\u3000')

/-- Python's `line.strip()`: drop leading and trailing whitespace. -/
def pyStrip (l : List Char) : List Char :=
  ((l.dropWhile pyWhitespace).reverse.dropWhile pyWhitespace).reverse

/-- Split a file's content at newline characters.  Iterating a Python file
yields the lines with their trailing newline; since every line is passed
through `strip`, splitting at the separator is equivalent (the final
empty piece produced by a trailing newline is a blank line, which
`load_checkpoint` discards). -/
def splitNl : List Char → List (List Char)
  | [] => [[]]
  | c :: rest =>
    if c = '\n' then [] :: splitNl rest
    else
      match splitNl rest with
      | [] => [[c]]
      | h :: t => (c :: h) :: t

/-- Python's universal-newline translation performed by reading a file in
text mode: `"\r\n"` and a lone `"\r"` are both read as `"\n"` (no other
character ends a line; on POSIX, writing in text mode is the identity, so
only the read side translates). -/
def univNl : List Char → List Char
  | [] => []
  | [c] => if c = '\r' then ['\n'] else [c]
  | c :: c2 :: rest =>
    if c = '\r' then
      if c2 = '\n' then '\n' :: univNl rest else '\n' :: univNl (c2 :: rest)
    else c :: univNl (c2 :: rest)

/-- `load_checkpoint` (source lines 40-45): a missing file yields the empty
set; otherwise the file is read in text mode (universal newlines) and the
result is the set of stripped non-blank lines. -/
def load_checkpoint (file : Option (List Char)) : Finset (List Char) :=
  match file with
  | none => ∅
  | some content =>
    (((splitNl (univNl content)).map pyStrip).filter (fun l => l ≠ [])).toFinset

/-- Lexicographic comparison of strings by code point, as Python's `sorted`
uses on `str`. -/
def lexLe : List Char → List Char → Bool
  | [], _ => true
  | _ :: _, [] => false
  | a :: xs, b :: ys => if a = b then lexLe xs ys else decide (a < b)

def insertSorted (x : List Char) : List (List Char) → List (List Char)
  | [] => [x]
  | y :: ys => if lexLe x y then x :: y :: ys else y :: insertSorted x ys

/-- Python's `sorted` on a list of strings (insertion sort; only the
multiset of elements matters for the properties proved below). -/
def sortSlugs : List (List Char) → List (List Char)
  | [] => []
  | x :: xs => insertSorted x (sortSlugs xs)

/-- Python's `"\n".join(lines)`. -/
def joinLines : List (List Char) → List Char
  | [] => []
  | l :: ls =>
    match ls with
    | [] => l
    | _ :: _ => l ++ '\n' :: joinLines ls

/-- The content written by `save_checkpoint` (source lines 47-49):
`"\n".join(sorted(slugs)) + "\n"`. -/
def save_checkpoint (slugs : List (List Char)) : List Char :=
  joinLines (sortSlugs slugs) ++ ['\n']

/-! ## Atomic checkpoint writes (`atomic_write`, source lines 33-38)

`atomic_write` writes the whole content to the sibling path
`path + ".tmp"` and then renames it over the target with `os.replace`.
We model the filesystem as `String → Option (List Char)` and list every
state an interruption could expose: the initial state, one state per
prefix of the temporary file written so far, and the state after the
atomic rename (which removes the temporary file and installs the new
content at the target). -/

abbrev FS : Type := String → Option (List Char)

def tmpPath (path : String) : String := path ++ ".tmp"

/-- The intermediate filesystem states while the temporary file is being
written: for each `i`, the temporary file holds the first `i` characters
of the content.  The target path is untouched. -/
def writeTmpStates (path : String) (content : List Char) (fs : FS) : List FS :=
  (List.range (content.length + 1)).map
    (fun i => Function.update fs (tmpPath path) (some (content.take i)))

/-- Every filesystem state exposed by a run of `atomic_write path content`,
in order: before anything, during the temporary-file write, and after the
`os.replace` rename. -/
def atomic_write_states (path : String) (content : List Char) (fs : FS) : List FS :=
  fs :: writeTmpStates path content fs
     ++ [Function.update (Function.update fs (tmpPath path) none) path (some content)]

theorem length_tmpPath (path : String) : (tmpPath path).length = path.length + 4 := by
  simp [tmpPath, String.length_append]
  rfl

theorem path_ne_tmpPath (path : String) : path ≠ tmpPath path := by
  intro h
  have := congrArg String.length h
  rw [length_tmpPath] at this
  omega

/-- C7: every checkpoint save goes through `atomic_write`, which writes the
full serialized snapshot to the sibling temporary path and then atomically
replaces the target; in every filesystem state an interruption could
expose, the target path holds either its prior content or the complete new
snapshot — never a partial one. -/
theorem checkpoint_save_atomic (path : String) (slugs : List (List Char)) (fs : FS)
    (st : FS) (hst : st ∈ atomic_write_states path (save_checkpoint slugs) fs) :
    st path = fs path ∨ st path = some (save_checkpoint slugs) := by
  rcases List.mem_cons.1 hst with rfl | hst2
  · exact Or.inl rfl
  · rcases List.mem_append.1 hst2 with hmap | hfin
    · rcases List.mem_map.1 hmap with ⟨i, _, rfl⟩
      exact Or.inl (Function.update_noteq (path_ne_tmpPath path) _ fs)
    · rw [List.mem_singleton.1 hfin]
      exact Or.inr (Function.update_same path _ _)

theorem checkpoint_save_atomic_witness :
    (fun _ => (none : Option (List Char))) "ckpt" = (fun _ => (none : Option (List Char))) "ckpt" ∨
      (fun _ => (none : Option (List Char))) "ckpt" = some (save_checkpoint [['a']]) :=
  checkpoint_save_atomic "ckpt" [['a']] (fun _ => none) (fun _ => none)
    (by simp [atomic_write_states])

/-! ## Round-tripping checkpoints (C10) -/

theorem mem_insertSorted (x a : List Char) (l : List (List Char)) :
    a ∈ insertSorted x l ↔ a = x ∨ a ∈ l := by
  induction l with
  | nil => simp [insertSorted]
  | cons y ys ih =>
    simp only [insertSorted]
    split
    · simp [List.mem_cons]
    · simp [List.mem_cons, ih]
      tauto

theorem mem_sortSlugs (a : List Char) (l : List (List Char)) :
    a ∈ sortSlugs l ↔ a ∈ l := by
  induction l with
  | nil => simp [sortSlugs]
  | cons x xs ih => simp [sortSlugs, mem_insertSorted, ih]

theorem insertSorted_ne_nil (x : List Char) (l : List (List Char)) :
    insertSorted x l ≠ [] := by
  cases l with
  | nil => simp [insertSorted]
  | cons y ys =>
    simp only [insertSorted]
    split <;> simp

theorem sortSlugs_ne_nil (x : List Char) (xs : List (List Char)) :
    sortSlugs (x :: xs) ≠ [] := by
  simp only [sortSlugs]
  exact insertSorted_ne_nil _ _

theorem joinLines_single (l : List Char) : joinLines [l] = l := rfl

theorem joinLines_cons_cons (l l2 : List Char) (t : List (List Char)) :
    joinLines (l :: l2 :: t) = l ++ '\n' :: joinLines (l2 :: t) := rfl

theorem splitNl_append_newline (l rest : List Char) (h : '\n' ∉ l) :
    splitNl (l ++ '\n' :: rest) = l :: splitNl rest := by
  induction l with
  | nil => simp [splitNl]
  | cons c cs ih =>
    have hc : ¬(c = '\n') := fun hc => h (by simp [hc])
    have ih2 := ih (fun hm => h (List.mem_cons_of_mem _ hm))
    simp only [List.cons_append, splitNl, if_neg hc, List.append_eq, ih2]

theorem splitNl_joinLines (ls : List (List Char)) (hne : ls ≠ [])
    (h : ∀ l ∈ ls, '\n' ∉ l) :
    splitNl (joinLines ls ++ ['\n']) = ls ++ [[]] := by
  induction ls with
  | nil => exact absurd rfl hne
  | cons l ls ih =>
    cases ls with
    | nil =>
      rw [joinLines_single, show (['\n'] : List Char) = '\n' :: [] from rfl,
        splitNl_append_newline l [] (h l (by simp))]
      rfl
    | cons l2 t =>
      rw [joinLines_cons_cons, List.append_assoc, List.cons_append,
        splitNl_append_newline l _ (h l (by simp)),
        ih (by simp) (fun m hm => h m (List.mem_cons_of_mem _ hm))]
      rfl

theorem univNl_cons_ne (c : Char) (rest : List Char) (h : ¬(c = '\r')) :
    univNl (c :: rest) = c :: univNl rest := by
  cases rest with
  | nil => simp [univNl, h]
  | cons c2 t => simp [univNl, h]

theorem univNl_of_not_mem (l : List Char) (h : '\r' ∉ l) : univNl l = l := by
  induction l with
  | nil => rfl
  | cons c rest ih =>
    have hc : ¬(c = '\r') := fun he => h (by simp [he])
    rw [univNl_cons_ne c rest hc, ih (fun hm => h (List.mem_cons_of_mem _ hm))]

theorem not_mem_joinLines (ch : Char) (hch : ch ≠ '\n') (ls : List (List Char))
    (h : ∀ l ∈ ls, ch ∉ l) : ch ∉ joinLines ls := by
  induction ls with
  | nil => simp [joinLines]
  | cons l ls ih =>
    cases ls with
    | nil =>
      rw [joinLines_single]
      exact h l (by simp)
    | cons l2 t =>
      rw [joinLines_cons_cons]
      intro hm
      rcases List.mem_append.1 hm with hm1 | hm2
      · exact h l (by simp) hm1
      · rcases List.mem_cons.1 hm2 with heq | hm3
        · exact hch heq
        · exact ih (fun m hmem => h m (List.mem_cons_of_mem _ hmem)) hm3

/-- C10, counterexample: the identifier `"a\nb"` is non-empty and has no
leading or trailing whitespace, yet saving the singleton set containing it
and loading the file back does not return the same set (the embedded
newline splits it into two identifiers). -/
theorem roundtrip_newline_counterexample :
    (['a', '\n', 'b'] : List Char) ≠ [] ∧
      pyStrip ['a', '\n', 'b'] = ['a', '\n', 'b'] ∧
      load_checkpoint (some (save_checkpoint [['a', '\n', 'b']])) ≠
        ([['a', '\n', 'b']] : List (List Char)).toFinset := by
  decide

/-- C10 amended: for every finite set of identifiers that are non-empty,
free of leading/trailing (Unicode) whitespace, and contain no newline and
no carriage return, loading a checkpoint file right after saving the set
returns exactly the same set; loading a missing file returns the empty
set. -/
theorem checkpoint_roundtrip (slugs : List (List Char))
    (hclean : ∀ s ∈ slugs, s ≠ [] ∧ pyStrip s = s ∧ '\n' ∉ s ∧ '\r' ∉ s) :
    load_checkpoint (some (save_checkpoint slugs)) = slugs.toFinset ∧
      load_checkpoint none = ∅ := by
  refine ⟨?_, rfl⟩
  by_cases hnil : slugs = []
  · subst hnil; decide
  · have hsort_ne : sortSlugs slugs ≠ [] := by
      cases slugs with
      | nil => exact absurd rfl hnil
      | cons a l => exact sortSlugs_ne_nil _ _
    have hnl : ∀ m ∈ sortSlugs slugs, '\n' ∉ m :=
      fun m hm => (hclean m ((mem_sortSlugs _ _).1 hm)).2.2.1
    have hnr : '\r' ∉ joinLines (sortSlugs slugs) ++ ['\n'] := by
      intro hm
      rcases List.mem_append.1 hm with hm1 | hm2
      · exact not_mem_joinLines '\r' (by decide) (sortSlugs slugs)
          (fun m hmem => (hclean m ((mem_sortSlugs _ _).1 hmem)).2.2.2) hm1
      · exact absurd (List.mem_singleton.1 hm2) (by decide)
    simp only [load_checkpoint, save_checkpoint]
    rw [univNl_of_not_mem _ hnr, splitNl_joinLines _ hsort_ne hnl]
    ext x
    simp only [List.mem_toFinset, List.mem_filter, List.mem_map, List.mem_append,
      List.mem_singleton, mem_sortSlugs, ne_eq, decide_not]
    constructor
    · rintro ⟨⟨s, hs' | rfl, rfl⟩, hx⟩
      · rw [(hclean s hs').2.1]
        exact hs'
      · simp [pyStrip] at hx
    · intro hx
      refine ⟨⟨x, Or.inl hx, (hclean x hx).2.1⟩, by simpa using (hclean x hx).1⟩

theorem checkpoint_roundtrip_witness :
    (∀ s ∈ ([['a'], ['b', 'c']] : List (List Char)),
        s ≠ [] ∧ pyStrip s = s ∧ '\n' ∉ s ∧ '\r' ∉ s) ∧
      (load_checkpoint (some (save_checkpoint [['a'], ['b', 'c']])) =
          ([['a'], ['b', 'c']] : List (List Char)).toFinset ∧
        load_checkpoint none = ∅) :=
  ⟨by decide, checkpoint_roundtrip [['a'], ['b', 'c']] (by decide)⟩

/-! ## Discovery engine (`scrape_slugs`, source lines 51-96)

The listing endpoint is an oracle `endpoint : Nat → List α` giving, for
each round number, the identifiers extracted from that round's response
(`SLUG_REGEX.findall`).  The loop is given fuel because the source loop
has no round cap; running out of fuel returns `none`.  The state records
the accumulated set, the round counter, the since-last-save counter, the
list of checkpoint snapshots saved so far, and (as a ghost field used
only in specifications) the number of new identifiers the last round
added. -/

/-- The per-round accumulation loop (source lines 70-75): add each
response slug not already present, counting how many were new. -/
def scrapeRound {α : Type} [DecidableEq α] (resp : List α) (slugs : Finset α) :
    Finset α × Nat :=
  match resp with
  | [] => (slugs, 0)
  | s :: rest =>
    if s ∈ slugs then scrapeRound rest slugs
    else
      let p := scrapeRound rest (insert s slugs)
      (p.1, p.2 + 1)

structure ScrapeSt (α : Type) where
  slugs : Finset α
  rounds : Nat
  newSinceSave : Nat
  saves : List (Finset α)
  lastFound : Nat
  deriving DecidableEq

/-- One iteration of the discovery loop body (source lines 62-84): bump the
round counter, accumulate the round's response, and checkpoint the full
set when the since-last-save counter has reached `CHECKPOINT_INTERVAL`,
resetting that counter. -/
def scrapeStep {α : Type} [DecidableEq α] (resp : List α) (st : ScrapeSt α) : ScrapeSt α :=
  let p := scrapeRound resp st.slugs
  let nss := st.newSinceSave + p.2
  if CHECKPOINT_INTERVAL ≤ nss then
    { slugs := p.1, rounds := st.rounds + 1, newSinceSave := 0,
      saves := st.saves ++ [p.1], lastFound := p.2 }
  else
    { slugs := p.1, rounds := st.rounds + 1, newSinceSave := nss,
      saves := st.saves, lastFound := p.2 }

/-- The discovery loop (source lines 61-89): run rounds until one adds
zero new identifiers.  The break test follows the checkpoint test, as in
the source. -/
def scrapeLoop {α : Type} [DecidableEq α] (endpoint : Nat → List α) :
    Nat → ScrapeSt α → Option (ScrapeSt α)
  | 0, _ => none
  | fuel + 1, st =>
    let st' := scrapeStep (endpoint (st.rounds + 1)) st
    if st'.lastFound = 0 then some st' else scrapeLoop endpoint fuel st'

/-- `scrape_slugs` (source lines 51-96): start from the loaded checkpoint
set, run the loop, then perform the unconditional final save.  Returns
the final set, the number of rounds performed, and the list of checkpoint
snapshots written (in order). -/
def scrape_slugs {α : Type} [DecidableEq α] (endpoint : Nat → List α) (fuel : Nat)
    (init : Finset α) : Option (Finset α × Nat × List (Finset α)) :=
  match scrapeLoop endpoint fuel
      { slugs := init, rounds := 0, newSinceSave := 0, saves := [], lastFound := 0 } with
  | none => none
  | some st => some (st.slugs, st.rounds, st.saves ++ [st.slugs])

theorem scrapeStep_slugs {α : Type} [DecidableEq α] (resp : List α) (st : ScrapeSt α) :
    (scrapeStep resp st).slugs = (scrapeRound resp st.slugs).1 := by
  simp only [scrapeStep]
  split <;> rfl

theorem scrapeStep_rounds {α : Type} [DecidableEq α] (resp : List α) (st : ScrapeSt α) :
    (scrapeStep resp st).rounds = st.rounds + 1 := by
  simp only [scrapeStep]
  split <;> rfl

theorem scrapeStep_lastFound {α : Type} [DecidableEq α] (resp : List α) (st : ScrapeSt α) :
    (scrapeStep resp st).lastFound = (scrapeRound resp st.slugs).2 := by
  simp only [scrapeStep]
  split <;> rfl

theorem scrapeRound_fst {α : Type} [DecidableEq α] (resp : List α) (S : Finset α) :
    (scrapeRound resp S).1 = S ∪ resp.toFinset := by
  induction resp generalizing S with
  | nil => simp [scrapeRound]
  | cons s rest ih =>
    by_cases h : s ∈ S
    · rw [scrapeRound, if_pos h, ih]
      ext x
      simp only [Finset.mem_union, List.toFinset_cons, Finset.mem_insert, List.mem_toFinset]
      constructor
      · tauto
      · rintro (h1 | rfl | h3) <;> tauto
    · rw [scrapeRound, if_neg h]
      simp only
      rw [ih]
      ext x
      simp only [Finset.mem_union, Finset.mem_insert, List.toFinset_cons, List.mem_toFinset]
      tauto

theorem scrapeRound_snd_disjoint {α : Type} [DecidableEq α] (resp : List α) (S : Finset α)
    (hnd : resp.Nodup) (hdisj : ∀ x ∈ resp, x ∉ S) :
    (scrapeRound resp S).2 = resp.length := by
  induction resp generalizing S with
  | nil => simp [scrapeRound]
  | cons s rest ih =>
    rw [scrapeRound, if_neg (hdisj s (List.mem_cons_self s rest))]
    simp only [List.length_cons]
    rw [ih (insert s S) (List.Nodup.of_cons hnd)]
    intro x hx
    simp only [Finset.mem_insert, not_or]
    exact ⟨fun he => (List.nodup_cons.1 hnd).1 (he ▸ hx), hdisj x (List.mem_cons_of_mem _ hx)⟩

/-! ## Termination of discovery (C4) -/

/-- Ceiling division: the number of size-`k` blocks needed to cover `N`. -/
def ceilDivNat (N k : Nat) : Nat := (N + k - 1) / k

theorem ceilDivNat_le_iff (N k m : Nat) (hk : 0 < k) :
    ceilDivNat N k ≤ m ↔ N ≤ m * k := by
  unfold ceilDivNat
  rw [Nat.div_le_iff_le_mul_add_pred hk, Nat.mul_comm m k]
  have h1 : N + k - 1 = N + (k - 1) := by omega
  rw [h1, Nat.add_le_add_iff_right]

/-- A simulated listing endpoint that reveals the `N` identifiers
`0, …, N-1` in blocks of `k` per round: round `i` returns the `i`-th
block, and rounds beyond `⌈N/k⌉` return nothing new. -/
def c4Endpoint (N k i : Nat) : List Nat :=
  List.range' ((i - 1) * k) (min k (N - (i - 1) * k))

theorem range_union_block (a k N : Nat) :
    Finset.range (min a N) ∪ (List.range' a (min k (N - a))).toFinset =
      Finset.range (min (a + k) N) := by
  ext x
  simp only [Finset.mem_union, Finset.mem_range, List.mem_toFinset, List.mem_range'_1]
  omega

theorem c4_loop (N k : Nat) (hk : 0 < k) :
    ∀ (fuel j : Nat) (st : ScrapeSt Nat),
      st.slugs = Finset.range (min (j * k) N) →
      st.rounds = j →
      j ≤ ceilDivNat N k →
      ceilDivNat N k + 1 ≤ fuel + j →
      ∃ st', scrapeLoop (c4Endpoint N k) fuel st = some st' ∧
        st'.rounds = ceilDivNat N k + 1 ∧ st'.slugs = Finset.range N := by
  intro fuel
  induction fuel with
  | zero =>
    intro j st _ _ hj hfuel
    omega
  | succ f ih =>
    intro j st hslugs hrounds hj hfuel
    have hresp : c4Endpoint N k (st.rounds + 1) = List.range' (j * k) (min k (N - j * k)) := by
      rw [hrounds]
      simp [c4Endpoint]
    by_cases hdone : ceilDivNat N k ≤ j
    · have hjeq : j = ceilDivNat N k := Nat.le_antisymm hj hdone
      have hNle : N ≤ j * k := (ceilDivNat_le_iff N k j hk).1 hdone
      have hrespnil : c4Endpoint N k (st.rounds + 1) = [] := by
        rw [hresp]
        have : min k (N - j * k) = 0 := by omega
        rw [this]
        rfl
      refine ⟨scrapeStep (c4Endpoint N k (st.rounds + 1)) st, ?_, ?_, ?_⟩
      · rw [scrapeLoop]
        have hlf : (scrapeStep (c4Endpoint N k (st.rounds + 1)) st).lastFound = 0 := by
          rw [scrapeStep_lastFound, hrespnil]
          rfl
        simp [hlf]
      · rw [scrapeStep_rounds, hrounds, hjeq]
      · rw [scrapeStep_slugs, hrespnil]
        have : (scrapeRound ([] : List Nat) st.slugs).1 = st.slugs := rfl
        rw [this, hslugs]
        congr 1
        omega
    · have hlt : j * k < N := by
        by_contra hge
        exact hdone ((ceilDivNat_le_iff N k j hk).2 (by omega))
      have hlen : 0 < min k (N - j * k) := by omega
      have hdisj : ∀ x ∈ List.range' (j * k) (min k (N - j * k)), x ∉ st.slugs := by
        intro x hx
        rw [List.mem_range'_1] at hx
        rw [hslugs, Finset.mem_range]
        omega
      have hfound : (scrapeRound (c4Endpoint N k (st.rounds + 1)) st.slugs).2 =
          min k (N - j * k) := by
        rw [hresp, scrapeRound_snd_disjoint _ _ (List.nodup_range' _ _) hdisj,
          List.length_range']
      have hlf : (scrapeStep (c4Endpoint N k (st.rounds + 1)) st).lastFound ≠ 0 := by
        rw [scrapeStep_lastFound, hfound]
        omega
      rw [scrapeLoop]
      simp only [if_neg hlf]
      refine ih (j + 1) _ ?_ ?_ ?_ ?_
      · rw [scrapeStep_slugs, hresp, scrapeRound_fst, hslugs, range_union_block]
        congr 2
        rw [Nat.succ_mul]
      · rw [scrapeStep_rounds, hrounds]
      · by_contra hgt
        have : ceilDivNat N k ≤ j := by omega
        exact hdone this
      · omega

/-- C4: the discovery loop ends exactly when a round adds zero new
identifiers — on exit the last round found nothing new, and an endpoint
that always yields a fresh identifier makes the loop run forever (no
round cap) — and on the simulated endpoint revealing `N` identifiers in
blocks of `k` per round, `scrape_slugs` performs exactly `⌈N/k⌉ + 1`
rounds and returns a set of size `N`. -/
theorem discovery_termination (N k : Nat) (hk : 0 < k) :
    (∃ S R saves,
      scrape_slugs (c4Endpoint N k) (ceilDivNat N k + 2) (∅ : Finset Nat) =
          some (S, R, saves) ∧
        R = ceilDivNat N k + 1 ∧ S = Finset.range N ∧ S.card = N) ∧
    (∀ (α : Type) [DecidableEq α] (e : Nat → List α) (fuel : Nat) (st st' : ScrapeSt α),
      scrapeLoop e fuel st = some st' → st'.lastFound = 0) ∧
    (∀ (fuel : Nat) (st : ScrapeSt Nat), st.slugs ⊆ Finset.range (st.rounds + 1) →
      scrapeLoop (fun r => [r]) fuel st = none) := by
  refine ⟨?_, ?_, ?_⟩
  · obtain ⟨st', hrun, hrounds, hslugs⟩ :=
      c4_loop N k hk (ceilDivNat N k + 2) 0
        { slugs := ∅, rounds := 0, newSinceSave := 0, saves := [], lastFound := 0 }
        (by simp) rfl (Nat.zero_le _) (by omega)
    refine ⟨st'.slugs, st'.rounds, st'.saves ++ [st'.slugs], ?_, hrounds, hslugs, ?_⟩
    · rw [scrape_slugs, hrun]
    · rw [hslugs, Finset.card_range]
  · intro α inst e fuel
    induction fuel with
    | zero => intro st st' h; exact absurd h (by rw [scrapeLoop]; simp)
    | succ f ih =>
      intro st st' h
      rw [scrapeLoop] at h
      by_cases hlf : (scrapeStep (e (st.rounds + 1)) st).lastFound = 0
      · rw [if_pos hlf] at h
        cases h
        exact hlf
      · rw [if_neg hlf] at h
        exact ih _ _ h
  · intro fuel
    induction fuel with
    | zero => intro st _; rfl
    | succ f ih =>
      intro st hsub
      rw [scrapeLoop]
      have hnotmem : st.rounds + 1 ∉ st.slugs := by
        intro hmem
        have := hsub hmem
        rw [Finset.mem_range] at this
        omega
      have hround : scrapeRound [st.rounds + 1] st.slugs =
          (insert (st.rounds + 1) st.slugs, 1) := by
        rw [scrapeRound, if_neg hnotmem]
        rfl
      have hlf : (scrapeStep [st.rounds + 1] st).lastFound = 1 := by
        rw [scrapeStep_lastFound, hround]
      rw [if_neg (by rw [hlf]; omega)]
      refine ih _ ?_
      rw [scrapeStep_slugs, scrapeStep_rounds, hround]
      intro x hx
      rw [Finset.mem_insert] at hx
      rw [Finset.mem_range]
      rcases hx with rfl | hx
      · omega
      · have := hsub hx
        rw [Finset.mem_range] at this
        omega

theorem discovery_termination_witness :
    0 < 2 ∧
      ((∃ S R saves,
        scrape_slugs (c4Endpoint 5 2) (ceilDivNat 5 2 + 2) (∅ : Finset Nat) =
            some (S, R, saves) ∧
          R = ceilDivNat 5 2 + 1 ∧ S = Finset.range 5 ∧ S.card = 5) ∧
      (∀ (α : Type) [DecidableEq α] (e : Nat → List α) (fuel : Nat) (st st' : ScrapeSt α),
        scrapeLoop e fuel st = some st' → st'.lastFound = 0) ∧
      (∀ (fuel : Nat) (st : ScrapeSt Nat), st.slugs ⊆ Finset.range (st.rounds + 1) →
        scrapeLoop (fun r => [r]) fuel st = none)) :=
  ⟨by decide, discovery_termination 5 2 (by decide)⟩

/-- C8: during discovery the full identifier set is saved exactly when the
count of identifiers added since the last save has reached
`CHECKPOINT_INTERVAL` (5) at the end of a round, and that save resets the
counter to zero; moreover every run that exits the loop performs exactly
one unconditional final save of the full set after loop exit. -/
theorem checkpoint_policy {α : Type} [DecidableEq α] :
    (∀ (resp : List α) (st : ScrapeSt α),
      (CHECKPOINT_INTERVAL ≤ st.newSinceSave + (scrapeRound resp st.slugs).2 →
        (scrapeStep resp st).saves = st.saves ++ [(scrapeRound resp st.slugs).1] ∧
          (scrapeStep resp st).newSinceSave = 0) ∧
      (st.newSinceSave + (scrapeRound resp st.slugs).2 < CHECKPOINT_INTERVAL →
        (scrapeStep resp st).saves = st.saves ∧
          (scrapeStep resp st).newSinceSave =
            st.newSinceSave + (scrapeRound resp st.slugs).2)) ∧
    (∀ (endpoint : Nat → List α) (fuel : Nat) (init S : Finset α) (R : Nat)
        (saves : List (Finset α)),
      scrape_slugs endpoint fuel init = some (S, R, saves) →
      ∃ pre, saves = pre ++ [S]) := by
  constructor
  · intro resp st
    constructor
    · intro h
      simp only [scrapeStep]
      rw [if_pos h]
      exact ⟨rfl, rfl⟩
    · intro h
      simp only [scrapeStep]
      rw [if_neg (by omega :
        ¬CHECKPOINT_INTERVAL ≤ st.newSinceSave + (scrapeRound resp st.slugs).2)]
      exact ⟨rfl, rfl⟩
  · intro endpoint fuel init S R saves h
    unfold scrape_slugs at h
    cases hl : scrapeLoop endpoint fuel
        { slugs := init, rounds := 0, newSinceSave := 0, saves := [], lastFound := 0 } with
    | none => rw [hl] at h; cases h
    | some st =>
      rw [hl] at h
      injection h with h2
      simp only [Prod.mk.injEq] at h2
      obtain ⟨hS, _, hsave⟩ := h2
      exact ⟨st.saves, by rw [← hsave, ← hS]⟩

/-! ## Fetch worker (`download`, source lines 98-139)

A payload is a byte string (`List Nat`).  The asset endpoint is an oracle
from the attempt number to a response; a connection error and a non-200
status are identified, because the source raises on a non-200 (line 117)
and both land in the same blanket `except`.  Filesystem faults are
oracles `wErr`/`aErr` telling whether the payload write (resp. the
completed-log append) raises on a given attempt; a failing payload write
is modelled as all-or-nothing (it raises without leaving a file). -/

abbrev Payload := List Nat

inductive Outcome
  | ok
  | skip
  | dedup
  | fail
  deriving DecidableEq, Repr

/-- The destination path derived from the slug (source lines 100-103),
relative to the output root. -/
def destPath (slug : String) : String := "piixes.com/api/icon/512/" ++ slug ++ ".png"

theorem destPath_inj (x y : String) (h : destPath x = destPath y) : x = y := by
  unfold destPath at h
  have hd := congrArg String.data h
  simp only [String.data_append] at hd
  exact String.ext (List.append_cancel_left (List.append_cancel_right hd))

/-- Modelled after the source's `sha256` under the standard idealization
that the digest is collision-free: the digest is represented by the
payload bytes themselves, so byte-identical payloads have equal digests
and distinct payloads distinct digests. -/
def sha256 (data : Payload) : Payload := data

inductive NetResp
  | ok (body : Payload)
  | err
  deriving DecidableEq

inductive Exn
  | netErr
  | fsErr
  deriving DecidableEq

deriving instance DecidableEq for Except

/-- The state a fetch worker can touch: the image files (keyed by path),
the completed-downloads log (append-only list of lines), and the
run-scoped content-hash registry `seen_hashes`. -/
structure DLState where
  files : String → Option Payload
  completedLog : List String
  seen : Finset Payload

/-- What one call of `download` produces: the returned outcome, the state
left behind, the number of asset requests issued, and the backoff sleeps
performed (in order). -/
structure DLRes where
  outcome : Outcome
  st : DLState
  netCalls : Nat
  sleeps : List ℚ

/-- The `try:` block of one attempt (source lines 110-134): returns the
state as left behind together with either the returned outcome or the
raised exception that the blanket `except` will catch.  Note that the
insertion into `seen_hashes` (line 124) precedes the payload write and
the log append, so a filesystem fault leaves the digest registered. -/
def attemptBody (net : Nat → NetResp) (wErr aErr : Nat → Bool) (slug : String)
    (attempt : Nat) (st : DLState) : DLState × Except Exn Outcome :=
  match net attempt with
  | .err => (st, .error .netErr)
  | .ok body =>
    let digest := sha256 body
    if digest ∈ st.seen then (st, .ok .dedup)
    else
      let st1 : DLState := { st with seen := insert digest st.seen }
      if wErr attempt then (st1, .error .fsErr)
      else
        let st2 : DLState :=
          { st1 with files := Function.update st1.files (destPath slug) (some body) }
        if aErr attempt then (st2, .error .fsErr)
        else ({ st2 with completedLog := st2.completedLog ++ [slug] }, .ok .ok)

/-- The retry loop (source lines 109-139): attempts are numbered from 1
and `remaining` counts the attempts still allowed (initially
`MAX_RETRIES`).  On an exception with no attempt remaining the worker
returns `fail` (lines 136-138); otherwise it sleeps
`BACKOFF_BASE ^ attempt` and retries. -/
def attemptLoop (net : Nat → NetResp) (wErr aErr : Nat → Bool) (slug : String) :
    Nat → Nat → DLState → DLRes
  | _, 0, st => ⟨.fail, st, 0, []⟩
  | attempt, remaining + 1, st =>
    match attemptBody net wErr aErr slug attempt st with
    | (st', .ok o) => ⟨o, st', 1, []⟩
    | (st', .error _) =>
      if remaining = 0 then ⟨.fail, st', 1, []⟩
      else
        let r := attemptLoop net wErr aErr slug (attempt + 1) remaining st'
        ⟨r.outcome, r.st, r.netCalls + 1, BACKOFF_BASE ^ attempt :: r.sleeps⟩

/-- `download` (source lines 98-139): return `skip` with no network call
when the destination file already exists; otherwise run the retry loop. -/
def download (net : Nat → NetResp) (wErr aErr : Nat → Bool) (slug : String)
    (st : DLState) : DLRes :=
  if (st.files (destPath slug)).isSome then ⟨.skip, st, 0, []⟩
  else attemptLoop net wErr aErr slug 1 MAX_RETRIES st

/-! ### Unfolding lemmas for the retry loop -/

theorem attemptLoop_err_one (net : Nat → NetResp) (wErr aErr : Nat → Bool) (slug : String)
    (attempt : Nat) (st : DLState) (h : net attempt = .err) :
    attemptLoop net wErr aErr slug attempt (0 + 1) st = ⟨.fail, st, 1, []⟩ := by
  rw [attemptLoop.eq_2]
  simp only [attemptBody, h]
  rfl

theorem attemptLoop_err_cons (net : Nat → NetResp) (wErr aErr : Nat → Bool) (slug : String)
    (attempt r : Nat) (st : DLState) (h : net attempt = .err) :
    attemptLoop net wErr aErr slug attempt (r + 1 + 1) st =
      ⟨(attemptLoop net wErr aErr slug (attempt + 1) (r + 1) st).outcome,
       (attemptLoop net wErr aErr slug (attempt + 1) (r + 1) st).st,
       (attemptLoop net wErr aErr slug (attempt + 1) (r + 1) st).netCalls + 1,
       BACKOFF_BASE ^ attempt ::
         (attemptLoop net wErr aErr slug (attempt + 1) (r + 1) st).sleeps⟩ := by
  rw [attemptLoop.eq_2]
  simp only [attemptBody, h]
  rw [if_neg (Nat.succ_ne_zero r)]

theorem attemptLoop_dedup (net : Nat → NetResp) (wErr aErr : Nat → Bool) (slug : String)
    (attempt r : Nat) (st : DLState) (body : Payload)
    (h : net attempt = .ok body) (hdup : sha256 body ∈ st.seen) :
    attemptLoop net wErr aErr slug attempt (r + 1) st = ⟨.dedup, st, 1, []⟩ := by
  rw [attemptLoop.eq_2]
  simp only [attemptBody, h]
  rw [if_pos hdup]

theorem attemptLoop_ok (net : Nat → NetResp) (wErr aErr : Nat → Bool) (slug : String)
    (attempt r : Nat) (st : DLState) (body : Payload)
    (h : net attempt = .ok body) (hnew : sha256 body ∉ st.seen)
    (hw : wErr attempt = false) (ha : aErr attempt = false) :
    attemptLoop net wErr aErr slug attempt (r + 1) st =
      ⟨.ok,
       { files := Function.update st.files (destPath slug) (some body),
         completedLog := st.completedLog ++ [slug],
         seen := insert (sha256 body) st.seen }, 1, []⟩ := by
  rw [attemptLoop.eq_2]
  simp only [attemptBody, h, hw, ha, Bool.false_eq_true, if_false]
  rw [if_neg hnew]

theorem attemptLoop_wErr_one (net : Nat → NetResp) (wErr aErr : Nat → Bool) (slug : String)
    (attempt : Nat) (st : DLState) (body : Payload)
    (h : net attempt = .ok body) (hnew : sha256 body ∉ st.seen) (hw : wErr attempt = true) :
    attemptLoop net wErr aErr slug attempt (0 + 1) st =
      ⟨.fail, { st with seen := insert (sha256 body) st.seen }, 1, []⟩ := by
  rw [attemptLoop.eq_2]
  simp only [attemptBody, h, hw, if_true]
  rw [if_neg hnew]

theorem attemptLoop_wErr_cons (net : Nat → NetResp) (wErr aErr : Nat → Bool) (slug : String)
    (attempt r : Nat) (st : DLState) (body : Payload)
    (h : net attempt = .ok body) (hnew : sha256 body ∉ st.seen) (hw : wErr attempt = true) :
    attemptLoop net wErr aErr slug attempt (r + 1 + 1) st =
      ⟨(attemptLoop net wErr aErr slug (attempt + 1) (r + 1)
          { st with seen := insert (sha256 body) st.seen }).outcome,
       (attemptLoop net wErr aErr slug (attempt + 1) (r + 1)
          { st with seen := insert (sha256 body) st.seen }).st,
       (attemptLoop net wErr aErr slug (attempt + 1) (r + 1)
          { st with seen := insert (sha256 body) st.seen }).netCalls + 1,
       BACKOFF_BASE ^ attempt ::
         (attemptLoop net wErr aErr slug (attempt + 1) (r + 1)
            { st with seen := insert (sha256 body) st.seen }).sleeps⟩ := by
  rw [attemptLoop.eq_2]
  simp only [attemptBody, h, hw, if_true]
  rw [if_neg hnew]
  exact if_neg (by omega : ¬(r + 1 = 0))

/-- C3: with no pre-existing file, an asset endpoint failing on attempts
1 to 3 and succeeding on attempt 4 makes `download` return `ok` (when the
payload's digest is new to the registry); an endpoint failing every
attempt makes it return `fail` after exactly 4 attempts; in both cases
the worker sleeps `BACKOFF_BASE ^ attempt` between consecutive attempts,
and those three delays are strictly increasing. -/
theorem retry_backoff (slug : String) (st : DLState) (net netF : Nat → NetResp)
    (body : Payload)
    (hfile : st.files (destPath slug) = none)
    (hfail : ∀ i, 1 ≤ i → i ≤ 3 → net i = .err) (hsucc : net 4 = .ok body)
    (hnew : sha256 body ∉ st.seen)
    (hallfail : ∀ i, netF i = .err) :
    (download net (fun _ => false) (fun _ => false) slug st).outcome = .ok ∧
    (download net (fun _ => false) (fun _ => false) slug st).netCalls = 4 ∧
    (download net (fun _ => false) (fun _ => false) slug st).sleeps =
      [BACKOFF_BASE ^ 1, BACKOFF_BASE ^ 2, BACKOFF_BASE ^ 3] ∧
    (download netF (fun _ => false) (fun _ => false) slug st).outcome = .fail ∧
    (download netF (fun _ => false) (fun _ => false) slug st).netCalls = 4 ∧
    (download netF (fun _ => false) (fun _ => false) slug st).sleeps =
      [BACKOFF_BASE ^ 1, BACKOFF_BASE ^ 2, BACKOFF_BASE ^ 3] ∧
    BACKOFF_BASE ^ 1 < BACKOFF_BASE ^ 2 ∧ BACKOFF_BASE ^ 2 < BACKOFF_BASE ^ 3 := by
  have hmr : MAX_RETRIES = 1 + 1 + 1 + 1 := rfl
  have hnf : (st.files (destPath slug)).isSome = false := by rw [hfile]; rfl
  have hd1 :
      download net (fun _ => false) (fun _ => false) slug st =
        ⟨.ok,
         { files := Function.update st.files (destPath slug) (some body),
           completedLog := st.completedLog ++ [slug],
           seen := insert (sha256 body) st.seen }, 4, [BACKOFF_BASE ^ 1,
           BACKOFF_BASE ^ 2, BACKOFF_BASE ^ 3]⟩ := by
    rw [download, hnf]
    simp only [Bool.false_eq_true, if_false, hmr]
    rw [attemptLoop_err_cons net _ _ slug 1 (1 + 1) st (hfail 1 (by omega) (by omega)),
      attemptLoop_err_cons net _ _ slug (1 + 1) 1 st (hfail (1 + 1) (by omega) (by omega)),
      attemptLoop_err_cons net _ _ slug (1 + 1 + 1) 0 st
        (hfail (1 + 1 + 1) (by omega) (by omega)),
      attemptLoop_ok net _ _ slug (1 + 1 + 1 + 1) 0 st body (by exact hsucc) hnew rfl rfl]
  have hd2 :
      download netF (fun _ => false) (fun _ => false) slug st =
        ⟨.fail, st, 4, [BACKOFF_BASE ^ 1, BACKOFF_BASE ^ 2, BACKOFF_BASE ^ 3]⟩ := by
    rw [download, hnf]
    simp only [Bool.false_eq_true, if_false, hmr]
    rw [attemptLoop_err_cons netF _ _ slug 1 (1 + 1) st (hallfail 1),
      attemptLoop_err_cons netF _ _ slug (1 + 1) 1 st (hallfail (1 + 1)),
      attemptLoop_err_cons netF _ _ slug (1 + 1 + 1) 0 st (hallfail (1 + 1 + 1)),
      attemptLoop_err_one netF _ _ slug (1 + 1 + 1 + 1) st (hallfail (1 + 1 + 1 + 1))]
  rw [hd1, hd2]
  refine ⟨rfl, rfl, rfl, rfl, rfl, rfl, ?_, ?_⟩ <;>
    · rw [BACKOFF_BASE]
      norm_num

/-- The empty worker state: no files, empty completed log, empty registry. -/
def stEmpty : DLState := ⟨fun _ => none, [], ∅⟩

/-- A network oracle that fails on attempts 1-3 and succeeds on attempt 4. -/
def netLate : Nat → NetResp := fun j => if j = 4 then .ok [1] else .err

/-- A network oracle that fails on every attempt. -/
def netDown : Nat → NetResp := fun _ => .err

theorem retry_backoff_witness :
    stEmpty.files (destPath "x") = none ∧
      ((download netLate (fun _ => false) (fun _ => false) "x" stEmpty).outcome = .ok ∧
        (download netLate (fun _ => false) (fun _ => false) "x" stEmpty).netCalls = 4 ∧
        (download netLate (fun _ => false) (fun _ => false) "x" stEmpty).sleeps =
          [BACKOFF_BASE ^ 1, BACKOFF_BASE ^ 2, BACKOFF_BASE ^ 3] ∧
        (download netDown (fun _ => false) (fun _ => false) "x" stEmpty).outcome = .fail ∧
        (download netDown (fun _ => false) (fun _ => false) "x" stEmpty).netCalls = 4 ∧
        (download netDown (fun _ => false) (fun _ => false) "x" stEmpty).sleeps =
          [BACKOFF_BASE ^ 1, BACKOFF_BASE ^ 2, BACKOFF_BASE ^ 3] ∧
        BACKOFF_BASE ^ 1 < BACKOFF_BASE ^ 2 ∧ BACKOFF_BASE ^ 2 < BACKOFF_BASE ^ 3) :=
  ⟨rfl, retry_backoff "x" stEmpty netLate netDown [1] rfl
      (by intro i h1 h3; simp only [netLate]; rw [if_neg (by omega)])
      rfl (by decide) (fun i => rfl)⟩

/-! ## Filesystem errors inside a worker (C6) -/

/-- C6, counterexample: with the payload write raising on every attempt,
the first attempt's `try:` block does raise a filesystem error, yet
`download` still returns a per-identifier outcome: the error is caught by
the blanket `except` of source line 136, the worker retries, and the
retry observes the digest the failed attempt had already registered, so
the worker returns `dedup` after 2 network calls.  Nothing propagates
and the run is not aborted. -/
theorem fs_error_not_propagated_counterexample :
    (attemptBody (fun _ => .ok [7]) (fun _ => true) (fun _ => false) "x" 1 stEmpty).2 =
      Except.error Exn.fsErr ∧
    (download (fun _ => .ok [7]) (fun _ => true) (fun _ => false) "x" stEmpty).outcome =
      Outcome.dedup ∧
    (download (fun _ => .ok [7]) (fun _ => true) (fun _ => false) "x" stEmpty).netCalls = 2 := by
  decide

/-- C6 amended: a filesystem error inside a fetch worker is caught by the
worker's blanket exception handler exactly like a network failure: the
attempt counts as failed and, with attempts remaining, is retried — a
retry that re-fetches content whose digest the failed attempt already
registered returns `dedup` — while exhausting all attempts on fresh
content yields `fail` after `MAX_RETRIES` requests.  In neither case does
the error propagate out of the worker or abort the run, and no payload
file is written. -/
theorem fs_error_folded (slug : String) (st : DLState) (body : Payload)
    (bodies : Nat → Payload)
    (hfile : st.files (destPath slug) = none)
    (hnew : sha256 body ∉ st.seen)
    (hbnew : ∀ i, sha256 (bodies i) ∉ st.seen)
    (hbdist : ∀ i j, i ≠ j → sha256 (bodies i) ≠ sha256 (bodies j)) :
    ((download (fun _ => .ok body) (fun _ => true) (fun _ => false) slug st).outcome =
        .dedup ∧
      (download (fun _ => .ok body) (fun _ => true) (fun _ => false) slug st).netCalls = 2 ∧
      (download (fun _ => .ok body) (fun _ => true) (fun _ => false) slug
          st).st.files (destPath slug) = none) ∧
    ((download (fun i => .ok (bodies i)) (fun _ => true) (fun _ => false) slug st).outcome =
        .fail ∧
      (download (fun i => .ok (bodies i)) (fun _ => true) (fun _ => false) slug
          st).netCalls = 4 ∧
      (download (fun i => .ok (bodies i)) (fun _ => true) (fun _ => false) slug
          st).st.files (destPath slug) = none) := by
  have hnf : (st.files (destPath slug)).isSome = false := by rw [hfile]; rfl
  have hmr : MAX_RETRIES = 1 + 1 + 1 + 1 := rfl
  constructor
  · rw [download, hnf]
    simp only [Bool.false_eq_true, if_false, hmr]
    rw [attemptLoop_wErr_cons _ _ _ slug 1 (1 + 1) st body rfl hnew rfl,
      attemptLoop_dedup _ _ _ slug (1 + 1) (1 + 1) _ body rfl (Finset.mem_insert_self _ _)]
    exact ⟨rfl, rfl, hfile⟩
  · rw [download, hnf]
    simp only [Bool.false_eq_true, if_false, hmr]
    have h2 : sha256 (bodies (1 + 1)) ∉
        ({ st with seen := insert (sha256 (bodies 1)) st.seen } : DLState).seen := by
      simp only [Finset.mem_insert, not_or]
      exact ⟨hbdist (1 + 1) 1 (by omega), hbnew (1 + 1)⟩
    have h3 : sha256 (bodies (1 + 1 + 1)) ∉
        ({ ({ st with seen := insert (sha256 (bodies 1)) st.seen } : DLState) with
            seen := insert (sha256 (bodies (1 + 1)))
              (insert (sha256 (bodies 1)) st.seen) } : DLState).seen := by
      simp only [Finset.mem_insert, not_or]
      exact ⟨hbdist (1 + 1 + 1) (1 + 1) (by omega), hbdist (1 + 1 + 1) 1 (by omega),
        hbnew (1 + 1 + 1)⟩
    have h4 : sha256 (bodies (1 + 1 + 1 + 1)) ∉
        (insert (sha256 (bodies (1 + 1 + 1)))
          (insert (sha256 (bodies (1 + 1))) (insert (sha256 (bodies 1)) st.seen))) := by
      simp only [Finset.mem_insert, not_or]
      exact ⟨hbdist (1 + 1 + 1 + 1) (1 + 1 + 1) (by omega),
        hbdist (1 + 1 + 1 + 1) (1 + 1) (by omega),
        hbdist (1 + 1 + 1 + 1) 1 (by omega), hbnew (1 + 1 + 1 + 1)⟩
    rw [attemptLoop_wErr_cons _ _ _ slug 1 (1 + 1) st (bodies 1) rfl (hbnew 1) rfl]
    rw [attemptLoop_wErr_cons _ _ _ slug (1 + 1) 1 _ (bodies (1 + 1)) rfl h2 rfl]
    rw [attemptLoop_wErr_cons _ _ _ slug (1 + 1 + 1) 0 _ (bodies (1 + 1 + 1)) rfl h3 rfl]
    rw [attemptLoop_wErr_one _ _ _ slug (1 + 1 + 1 + 1) _ (bodies (1 + 1 + 1 + 1)) rfl h4 rfl]
    exact ⟨rfl, rfl, hfile⟩

theorem fs_error_folded_witness :
    ((download (fun _ => NetResp.ok [7]) (fun _ => true) (fun _ => false) "x"
        stEmpty).outcome = Outcome.dedup ∧
      (download (fun _ => NetResp.ok [7]) (fun _ => true) (fun _ => false) "x"
        stEmpty).netCalls = 2 ∧
      (download (fun _ => NetResp.ok [7]) (fun _ => true) (fun _ => false) "x"
        stEmpty).st.files (destPath "x") = none) ∧
    ((download (fun i => NetResp.ok [i]) (fun _ => true) (fun _ => false) "x"
        stEmpty).outcome = Outcome.fail ∧
      (download (fun i => NetResp.ok [i]) (fun _ => true) (fun _ => false) "x"
        stEmpty).netCalls = 4 ∧
      (download (fun i => NetResp.ok [i]) (fun _ => true) (fun _ => false) "x"
        stEmpty).st.files (destPath "x") = none) :=
  fs_error_folded "x" stEmpty [7] (fun i => [i]) rfl (by decide)
    (fun i => Finset.not_mem_empty _)
    (fun i j hij h => hij (List.cons_eq_cons.mp h).1)

/-! ## A dedup outcome leaves external state unchanged (C9) -/

/-- C9, counterexample: when the completed-log append raises on the first
attempt (after the payload was already written), the caught error causes
a retry whose re-fetch observes the registered digest, so the fetch
returns `dedup` — yet a file does exist at the identifier's destination
path.  So a `dedup` outcome does not always leave the filesystem
untouched. -/
theorem dedup_after_fs_error_writes_file :
    (download (fun _ => .ok [7]) (fun _ => false) (fun i => i == 1) "x" stEmpty).outcome =
      Outcome.dedup ∧
    (download (fun _ => .ok [7]) (fun _ => false) (fun i => i == 1) "x"
      stEmpty).st.files (destPath "x") = some [7] ∧
    (download (fun _ => .ok [7]) (fun _ => false) (fun i => i == 1) "x"
      stEmpty).st.completedLog = [] := by
  decide

theorem attemptLoop_clean_dedup (net : Nat → NetResp) (slug : String) :
    ∀ (remaining attempt : Nat) (st : DLState),
      (attemptLoop net (fun _ => false) (fun _ => false) slug attempt remaining
        st).outcome = .dedup →
      (attemptLoop net (fun _ => false) (fun _ => false) slug attempt remaining st).st =
        st := by
  intro remaining
  induction remaining with
  | zero =>
    intro attempt st h
    rw [attemptLoop.eq_1] at h
    exact absurd h (fun hc => Outcome.noConfusion hc)
  | succ r ih =>
    intro attempt st h
    rw [attemptLoop.eq_2] at h ⊢
    cases hn : net attempt with
    | err =>
      simp only [attemptBody, hn] at h ⊢
      by_cases hr : r = 0
      · rw [if_pos hr] at h
        exact absurd h (fun hc => Outcome.noConfusion hc)
      · rw [if_neg hr] at h ⊢
        exact ih (attempt + 1) st h
    | ok body =>
      by_cases hdup : sha256 body ∈ st.seen
      · simp only [attemptBody, hn, if_pos hdup] at h ⊢
      · simp only [attemptBody, hn, if_neg hdup, Bool.false_eq_true, if_false] at h ⊢
        exact absurd h (fun hc => Outcome.noConfusion hc)

/-- C9 amended: when no filesystem error occurs during the fetch, a fetch
returning `dedup` leaves all external state for that identifier
unchanged: the file map at the identifier's destination path and the
completed-downloads log are exactly as before the call (only the
in-memory hash registry already contained the digest). -/
theorem dedup_no_external_writes (net : Nat → NetResp) (slug : String) (st : DLState)
    (h : (download net (fun _ => false) (fun _ => false) slug st).outcome = .dedup) :
    (download net (fun _ => false) (fun _ => false) slug st).st.files (destPath slug) =
      st.files (destPath slug) ∧
    (download net (fun _ => false) (fun _ => false) slug st).st.completedLog =
      st.completedLog := by
  rw [download] at h ⊢
  by_cases hf : (st.files (destPath slug)).isSome = true
  · rw [if_pos hf] at h
    exact absurd h (fun hc => Outcome.noConfusion hc)
  · rw [if_neg hf] at h ⊢
    rw [attemptLoop_clean_dedup net slug MAX_RETRIES 1 st h]
    exact ⟨rfl, rfl⟩

/-- A worker state whose run-scoped registry already contains the digest
of the payload `[7]`. -/
def stDup : DLState := ⟨fun _ => none, [], {[7]}⟩

theorem dedup_no_external_writes_witness :
    (download (fun _ => NetResp.ok [7]) (fun _ => false) (fun _ => false) "x"
        stDup).st.files (destPath "x") = stDup.files (destPath "x") ∧
      (download (fun _ => NetResp.ok [7]) (fun _ => false) (fun _ => false) "x"
        stDup).st.completedLog = stDup.completedLog :=
  dedup_no_external_writes (fun _ => NetResp.ok [7]) "x" stDup (by decide)

/-! ## Download coordinator (`main`, source lines 181-217)

The coordinator loads the completed set from the append-only log, filters
it out of the slug list, resets the run-scoped hash registry, dispatches
the rest, aggregates outcomes, and persists the failed list only when it
is non-empty.  The worker pool is modelled sequentially: the dispatched
identifiers are processed in list order, fixing one completion order.
The completed log is carried as the list of appended lines; loading it
takes the set of its entries, which models `load_checkpoint`'s
duplicate-tolerant parse of the append-only file (the string-level
parsing itself is verified in the checkpoint section above). -/

/-- Process the dispatched identifiers in order, threading the shared
state; each result entry records the identifier, its outcome, and how
many asset requests its worker issued. -/
def runSlugs (net : String → Nat → NetResp) (wErr aErr : String → Nat → Bool) :
    List String → DLState → List (String × Outcome × Nat) × DLState
  | [], st => ([], st)
  | s :: rest, st =>
    let r := download (net s) (wErr s) (aErr s) s st
    let p := runSlugs net wErr aErr rest r.st
    ((s, r.outcome, r.netCalls) :: p.1, p.2)

/-- The run-level state `downloadAll` starts from and leaves behind: the
worker-visible state plus the failed-downloads file. -/
structure MainState where
  dl : DLState
  failedFile : Option (List String)

structure RunRes where
  outcomes : List (String × Outcome × Nat)
  ms : MainState

/-- The identifiers whose outcome this run was `fail`, in completion
order (source lines 197 and 209-212). -/
def failedOf (outcomes : List (String × Outcome × Nat)) : List String :=
  (outcomes.filter (fun e => e.2.1 = Outcome.fail)).map (fun e => e.1)

/-- `downloadAll` (source lines 181-217): load the completed set and
filter it out of the input, reset the run-scoped registry (line 195), run
every remaining identifier, and overwrite the failed-downloads file only
when this run had at least one failure (source line 215). -/
def downloadAll (net : String → Nat → NetResp) (wErr aErr : String → Nat → Bool)
    (slugs : List String) (ms : MainState) : RunRes :=
  let completed := ms.dl.completedLog.toFinset
  let todo := slugs.filter (fun s => s ∉ completed)
  let p := runSlugs net wErr aErr todo { ms.dl with seen := ∅ }
  let failed := failedOf p.1
  { outcomes := p.1,
    ms := { dl := p.2,
            failedFile := if failed = [] then ms.failedFile else some failed } }

/-- A fault-free network oracle always answering 200 with the bytes `[7]`,
so any two identifiers have byte-identical payloads. -/
def netOk7 : String → Nat → NetResp := fun _ _ => .ok [7]

/-- No filesystem faults. -/
def noFault : String → Nat → Bool := fun _ _ => false

/-- A run-level state left behind by an earlier run that recorded the
failed identifier `"x"`. -/
def msStale : MainState := ⟨stEmpty, some ["x"]⟩

/-- C5, counterexample: a run with zero failures does not touch the
failed-downloads file (source line 215 writes only when `failed_slugs` is
non-empty), so the failure `"x"` recorded by a prior run remains in the
file, contradicting the claim that the file is written every run and
prior failures never remain. -/
theorem failed_file_stale_counterexample :
    failedOf (downloadAll netOk7 noFault noFault ["a"] msStale).outcomes = [] ∧
      (downloadAll netOk7 noFault noFault ["a"] msStale).ms.failedFile = some ["x"] := by
  decide

/-- C5 amended: when the current run has at least one `fail` outcome, the
failed-downloads file is written exactly once at run end with overwrite
semantics and contains exactly this run's failed identifiers; when the
current run has zero failures nothing is written, so the file keeps
whatever an earlier run left in it. -/
theorem failed_file_write_semantics (net : String → Nat → NetResp)
    (wErr aErr : String → Nat → Bool) (slugs : List String) (ms : MainState) :
    (failedOf (downloadAll net wErr aErr slugs ms).outcomes ≠ [] →
      (downloadAll net wErr aErr slugs ms).ms.failedFile =
        some (failedOf (downloadAll net wErr aErr slugs ms).outcomes)) ∧
    (failedOf (downloadAll net wErr aErr slugs ms).outcomes = [] →
      (downloadAll net wErr aErr slugs ms).ms.failedFile = ms.failedFile) := by
  constructor <;> intro h
  · simp only [downloadAll] at h ⊢
    rw [if_neg h]
  · simp only [downloadAll] at h ⊢
    rw [if_pos h]

/-- C1, counterexample: identifiers `"a"` and `"b"` download byte-identical
payloads, so the first run ends with outcomes `ok` for `"a"` and `dedup`
for `"b"`; only `"a"` enters the completed log and only `"a"`'s file
exists.  Re-running with identical identifiers and no state cleared
dispatches `"b"` again: it passes both the completed-set filter and the
existing-file check and issues 1 network call (outcome `ok`, not `skip`),
refuting the zero-network-calls claim. -/
theorem second_run_refetches_dedup :
    (downloadAll netOk7 noFault noFault ["a", "b"] ⟨stEmpty, none⟩).outcomes =
      [("a", Outcome.ok, 1), ("b", Outcome.dedup, 1)] ∧
      (downloadAll netOk7 noFault noFault ["a", "b"]
          (downloadAll netOk7 noFault noFault ["a", "b"] ⟨stEmpty, none⟩).ms).outcomes =
        [("b", Outcome.ok, 1)] := by
  decide

/-! ### Monotonicity facts used by the amended idempotence claim -/

theorem attemptLoop_isSome_mono (net : Nat → NetResp) (wErr aErr : Nat → Bool)
    (slug : String) :
    ∀ (r attempt : Nat) (st : DLState) (path : String),
      (st.files path).isSome = true →
      ((attemptLoop net wErr aErr slug attempt r st).st.files path).isSome = true := by
  intro r
  induction r with
  | zero =>
    intro attempt st path h
    rw [attemptLoop.eq_1]
    exact h
  | succ r ih =>
    intro attempt st path h
    rw [attemptLoop.eq_2]
    cases hn : net attempt with
    | err =>
      simp only [attemptBody, hn]
      by_cases hr : r = 0
      · rw [if_pos hr]; exact h
      · rw [if_neg hr]; exact ih (attempt + 1) st path h
    | ok body =>
      by_cases hdup : sha256 body ∈ st.seen
      · simp only [attemptBody, hn, if_pos hdup]; exact h
      · have hupd : ((Function.update st.files (destPath slug) (some body)) path).isSome =
            true := by
          by_cases hp : path = destPath slug
          · rw [hp, Function.update_same]; rfl
          · rw [Function.update_noteq hp]; exact h
        cases hw : wErr attempt with
        | true =>
          simp only [attemptBody, hn, if_neg hdup, hw, if_true]
          by_cases hr : r = 0
          · rw [if_pos hr]; exact h
          · rw [if_neg hr]; exact ih (attempt + 1) _ path h
        | false =>
          cases ha : aErr attempt with
          | true =>
            simp only [attemptBody, hn, if_neg hdup, hw, ha,
              Bool.false_eq_true, if_false, if_true]
            by_cases hr : r = 0
            · rw [if_pos hr]; exact hupd
            · rw [if_neg hr]; exact ih (attempt + 1) _ path hupd
          | false =>
            simp only [attemptBody, hn, if_neg hdup, hw, ha,
              Bool.false_eq_true, if_false]
            exact hupd

theorem download_isSome_mono (net : Nat → NetResp) (wErr aErr : Nat → Bool)
    (slug : String) (st : DLState) (path : String)
    (h : (st.files path).isSome = true) :
    ((download net wErr aErr slug st).st.files path).isSome = true := by
  rw [download]
  by_cases hf : (st.files (destPath slug)).isSome = true
  · rw [if_pos hf]; exact h
  · rw [if_neg hf]; exact attemptLoop_isSome_mono net wErr aErr slug MAX_RETRIES 1 st path h

theorem runSlugs_isSome_mono (net : String → Nat → NetResp)
    (wErr aErr : String → Nat → Bool) :
    ∀ (l : List String) (st : DLState) (path : String),
      (st.files path).isSome = true →
      (((runSlugs net wErr aErr l st).2).files path).isSome = true := by
  intro l
  induction l with
  | nil => intro st path h; exact h
  | cons t rest ih =>
    intro st path h
    simp only [runSlugs]
    exact ih _ path (download_isSome_mono (net t) (wErr t) (aErr t) t st path h)

theorem attemptLoop_log_mono (net : Nat → NetResp) (wErr aErr : Nat → Bool)
    (slug : String) :
    ∀ (r attempt : Nat) (st : DLState) (s : String),
      s ∈ st.completedLog →
      s ∈ (attemptLoop net wErr aErr slug attempt r st).st.completedLog := by
  intro r
  induction r with
  | zero =>
    intro attempt st s h
    rw [attemptLoop.eq_1]
    exact h
  | succ r ih =>
    intro attempt st s h
    rw [attemptLoop.eq_2]
    cases hn : net attempt with
    | err =>
      simp only [attemptBody, hn]
      by_cases hr : r = 0
      · rw [if_pos hr]; exact h
      · rw [if_neg hr]; exact ih (attempt + 1) st s h
    | ok body =>
      by_cases hdup : sha256 body ∈ st.seen
      · simp only [attemptBody, hn, if_pos hdup]; exact h
      · cases hw : wErr attempt with
        | true =>
          simp only [attemptBody, hn, if_neg hdup, hw, if_true]
          by_cases hr : r = 0
          · rw [if_pos hr]; exact h
          · rw [if_neg hr]; exact ih (attempt + 1) _ s h
        | false =>
          cases ha : aErr attempt with
          | true =>
            simp only [attemptBody, hn, if_neg hdup, hw, ha,
              Bool.false_eq_true, if_false, if_true]
            by_cases hr : r = 0
            · rw [if_pos hr]; exact h
            · rw [if_neg hr]; exact ih (attempt + 1) _ s h
          | false =>
            simp only [attemptBody, hn, if_neg hdup, hw, ha,
              Bool.false_eq_true, if_false]
            exact List.mem_append_left _ h

theorem download_log_mono (net : Nat → NetResp) (wErr aErr : Nat → Bool)
    (slug : String) (st : DLState) (s : String)
    (h : s ∈ st.completedLog) :
    s ∈ (download net wErr aErr slug st).st.completedLog := by
  rw [download]
  by_cases hf : (st.files (destPath slug)).isSome = true
  · rw [if_pos hf]; exact h
  · rw [if_neg hf]; exact attemptLoop_log_mono net wErr aErr slug MAX_RETRIES 1 st s h

theorem runSlugs_log_mono (net : String → Nat → NetResp)
    (wErr aErr : String → Nat → Bool) :
    ∀ (l : List String) (st : DLState) (s : String),
      s ∈ st.completedLog → s ∈ (runSlugs net wErr aErr l st).2.completedLog := by
  intro l
  induction l with
  | nil => intro st s h; exact h
  | cons t rest ih =>
    intro st s h
    simp only [runSlugs]
    exact ih _ s (download_log_mono (net t) (wErr t) (aErr t) t st s h)

theorem attemptLoop_ok_log (net : Nat → NetResp) (wErr aErr : Nat → Bool)
    (slug : String) :
    ∀ (r attempt : Nat) (st : DLState),
      (attemptLoop net wErr aErr slug attempt r st).outcome = .ok →
      slug ∈ (attemptLoop net wErr aErr slug attempt r st).st.completedLog := by
  intro r
  induction r with
  | zero =>
    intro attempt st h
    rw [attemptLoop.eq_1] at h
    exact absurd h (fun hc => Outcome.noConfusion hc)
  | succ r ih =>
    intro attempt st h
    rw [attemptLoop.eq_2] at h ⊢
    cases hn : net attempt with
    | err =>
      simp only [attemptBody, hn] at h ⊢
      by_cases hr : r = 0
      · rw [if_pos hr] at h
        exact absurd h (fun hc => Outcome.noConfusion hc)
      · rw [if_neg hr] at h ⊢
        exact ih (attempt + 1) st h
    | ok body =>
      by_cases hdup : sha256 body ∈ st.seen
      · simp only [attemptBody, hn, if_pos hdup] at h
        exact absurd h (fun hc => Outcome.noConfusion hc)
      · cases hw : wErr attempt with
        | true =>
          simp only [attemptBody, hn, if_neg hdup, hw, if_true] at h ⊢
          by_cases hr : r = 0
          · rw [if_pos hr] at h
            exact absurd h (fun hc => Outcome.noConfusion hc)
          · rw [if_neg hr] at h ⊢
            exact ih (attempt + 1) _ h
        | false =>
          cases ha : aErr attempt with
          | true =>
            simp only [attemptBody, hn, if_neg hdup, hw, ha,
              Bool.false_eq_true, if_false, if_true] at h ⊢
            by_cases hr : r = 0
            · rw [if_pos hr] at h
              exact absurd h (fun hc => Outcome.noConfusion hc)
            · rw [if_neg hr] at h ⊢
              exact ih (attempt + 1) _ h
          | false =>
            simp only [attemptBody, hn, if_neg hdup, hw, ha,
              Bool.false_eq_true, if_false]
            exact List.mem_append_right _ (List.mem_singleton.2 rfl)

theorem attemptLoop_ne_skip (net : Nat → NetResp) (wErr aErr : Nat → Bool)
    (slug : String) :
    ∀ (r attempt : Nat) (st : DLState),
      (attemptLoop net wErr aErr slug attempt r st).outcome ≠ .skip := by
  intro r
  induction r with
  | zero =>
    intro attempt st
    rw [attemptLoop.eq_1]
    exact fun hc => Outcome.noConfusion hc
  | succ r ih =>
    intro attempt st
    rw [attemptLoop.eq_2]
    cases hn : net attempt with
    | err =>
      simp only [attemptBody, hn]
      by_cases hr : r = 0
      · rw [if_pos hr]; exact fun hc => Outcome.noConfusion hc
      · rw [if_neg hr]; exact ih (attempt + 1) st
    | ok body =>
      by_cases hdup : sha256 body ∈ st.seen
      · simp only [attemptBody, hn, if_pos hdup]
        exact fun hc => Outcome.noConfusion hc
      · cases hw : wErr attempt with
        | true =>
          simp only [attemptBody, hn, if_neg hdup, hw, if_true]
          by_cases hr : r = 0
          · rw [if_pos hr]; exact fun hc => Outcome.noConfusion hc
          · rw [if_neg hr]; exact ih (attempt + 1) _
        | false =>
          cases ha : aErr attempt with
          | true =>
            simp only [attemptBody, hn, if_neg hdup, hw, ha,
              Bool.false_eq_true, if_false, if_true]
            by_cases hr : r = 0
            · rw [if_pos hr]; exact fun hc => Outcome.noConfusion hc
            · rw [if_neg hr]; exact ih (attempt + 1) _
          | false =>
            simp only [attemptBody, hn, if_neg hdup, hw, ha,
              Bool.false_eq_true, if_false]
            exact fun hc => Outcome.noConfusion hc

theorem download_ok_log (net : Nat → NetResp) (wErr aErr : Nat → Bool)
    (slug : String) (st : DLState)
    (h : (download net wErr aErr slug st).outcome = .ok) :
    slug ∈ (download net wErr aErr slug st).st.completedLog := by
  rw [download] at h ⊢
  by_cases hf : (st.files (destPath slug)).isSome = true
  · rw [if_pos hf] at h
    exact absurd h (fun hc => Outcome.noConfusion hc)
  · rw [if_neg hf] at h ⊢
    exact attemptLoop_ok_log net wErr aErr slug MAX_RETRIES 1 st h

theorem download_skip (net : Nat → NetResp) (wErr aErr : Nat → Bool)
    (slug : String) (st : DLState)
    (h : (download net wErr aErr slug st).outcome = .skip) :
    (st.files (destPath slug)).isSome = true ∧
      (download net wErr aErr slug st).st = st := by
  rw [download] at h ⊢
  by_cases hf : (st.files (destPath slug)).isSome = true
  · rw [if_pos hf]
    exact ⟨hf, rfl⟩
  · rw [if_neg hf] at h
    exact absurd h (attemptLoop_ne_skip net wErr aErr slug MAX_RETRIES 1 st)

/-- Network calls attributed to an identifier in an outcome list. -/
def callsFor (s : String) (outcomes : List (String × Outcome × Nat)) : Nat :=
  ((outcomes.filter (fun e => e.1 = s)).map (fun e => e.2.2)).sum

theorem callsFor_cons (s a : String) (b : Outcome) (c : Nat)
    (rest : List (String × Outcome × Nat)) :
    callsFor s ((a, b, c) :: rest) =
      if a = s then c + callsFor s rest else callsFor s rest := by
  by_cases h : a = s
  · simp [callsFor, List.filter_cons, h]
  · simp [callsFor, List.filter_cons, h]

theorem runSlugs_callsFor_zero_of_not_mem (net : String → Nat → NetResp)
    (wErr aErr : String → Nat → Bool) :
    ∀ (l : List String) (st : DLState) (s : String),
      s ∉ l → callsFor s (runSlugs net wErr aErr l st).1 = 0 := by
  intro l
  induction l with
  | nil => intro st s _; rfl
  | cons t rest ih =>
    intro st s hs
    simp only [runSlugs]
    rw [callsFor_cons]
    rw [if_neg (fun he => hs (by rw [← he]; exact List.mem_cons_self t rest))]
    exact ih _ s (fun hm => hs (List.mem_cons_of_mem _ hm))

theorem runSlugs_callsFor_zero_of_isSome (net : String → Nat → NetResp)
    (wErr aErr : String → Nat → Bool) :
    ∀ (l : List String) (st : DLState) (s : String),
      (st.files (destPath s)).isSome = true →
      callsFor s (runSlugs net wErr aErr l st).1 = 0 := by
  intro l
  induction l with
  | nil => intro st s _; rfl
  | cons t rest ih =>
    intro st s h
    simp only [runSlugs]
    rw [callsFor_cons]
    by_cases hts : t = s
    · subst hts
      have hd : download (net t) (wErr t) (aErr t) t st = ⟨.skip, st, 0, []⟩ := by
        rw [download, if_pos h]
      rw [hd, if_pos rfl]
      have := ih st t h
      simp only [hd]
      omega
    · rw [if_neg hts]
      exact ih _ s (download_isSome_mono (net t) (wErr t) (aErr t) t st (destPath s) h)

theorem runSlugs_ok_mem_log (net : String → Nat → NetResp)
    (wErr aErr : String → Nat → Bool) :
    ∀ (l : List String) (st : DLState) (s : String) (k : Nat),
      (s, Outcome.ok, k) ∈ (runSlugs net wErr aErr l st).1 →
      s ∈ (runSlugs net wErr aErr l st).2.completedLog := by
  intro l
  induction l with
  | nil =>
    intro st s k h
    exact absurd h (List.not_mem_nil _)
  | cons t rest ih =>
    intro st s k h
    simp only [runSlugs] at h ⊢
    rcases List.mem_cons.1 h with heq | hmem
    · have h1 : s = t ∧ Outcome.ok = (download (net t) (wErr t) (aErr t) t st).outcome ∧
          k = (download (net t) (wErr t) (aErr t) t st).netCalls := by
        have := Prod.mk.injEq .. ▸ heq
        exact ⟨congrArg Prod.fst heq, congrArg (fun p => p.2.1) heq,
          congrArg (fun p => p.2.2) heq⟩
      obtain ⟨rfl, hok, -⟩ := h1
      exact runSlugs_log_mono net wErr aErr rest _ s
        (download_ok_log (net s) (wErr s) (aErr s) s st hok.symm)
    · exact ih _ s k hmem

theorem runSlugs_skip_final_isSome (net : String → Nat → NetResp)
    (wErr aErr : String → Nat → Bool) :
    ∀ (l : List String) (st : DLState) (s : String) (k : Nat),
      (s, Outcome.skip, k) ∈ (runSlugs net wErr aErr l st).1 →
      ((runSlugs net wErr aErr l st).2.files (destPath s)).isSome = true := by
  intro l
  induction l with
  | nil =>
    intro st s k h
    exact absurd h (List.not_mem_nil _)
  | cons t rest ih =>
    intro st s k h
    simp only [runSlugs] at h ⊢
    rcases List.mem_cons.1 h with heq | hmem
    · have hs : s = t := congrArg Prod.fst heq
      have hsk : Outcome.skip = (download (net t) (wErr t) (aErr t) t st).outcome :=
        congrArg (fun p => p.2.1) heq
      subst hs
      obtain ⟨hsome, hst⟩ := download_skip (net s) (wErr s) (aErr s) s st hsk.symm
      rw [hst]
      exact runSlugs_isSome_mono net wErr aErr rest st (destPath s) hsome
    · exact ih _ s k hmem

/-- C1 amended: in a re-run of `downloadAll` with identical identifiers
and no state cleared, every identifier whose first-run outcome was `ok`
or `skip` causes zero network calls the second time (`ok` identifiers are
removed by the completed-set filter, `skip` identifiers hit the
existing-file check).  Identifiers whose first-run outcome was `dedup`
(or `fail`) are dispatched and fetched again, because the hash registry
is run-scoped and a `dedup` outcome leaves neither a file nor a
completed-log entry. -/
theorem second_run_skips_ok_and_skip (net net2 : String → Nat → NetResp)
    (wErr aErr wErr2 aErr2 : String → Nat → Bool) (slugs : List String)
    (ms : MainState) (s : String) (o : Outcome) (k : Nat)
    (hmem : (s, o, k) ∈ (downloadAll net wErr aErr slugs ms).outcomes)
    (ho : o = Outcome.ok ∨ o = Outcome.skip) :
    callsFor s (downloadAll net2 wErr2 aErr2 slugs
      (downloadAll net wErr aErr slugs ms).ms).outcomes = 0 := by
  simp only [downloadAll] at hmem ⊢
  rcases ho with rfl | rfl
  · have hlog := runSlugs_ok_mem_log net wErr aErr _ _ s k hmem
    apply runSlugs_callsFor_zero_of_not_mem
    intro hs
    rw [List.mem_filter] at hs
    exact of_decide_eq_true hs.2 (List.mem_toFinset.2 hlog)
  · have hsome := runSlugs_skip_final_isSome net wErr aErr _ _ s k hmem
    exact runSlugs_callsFor_zero_of_isSome net2 wErr2 aErr2 _ _ s hsome

theorem second_run_skips_ok_and_skip_witness :
    (("a", Outcome.ok, 1) ∈
        (downloadAll netOk7 noFault noFault ["a"] ⟨stEmpty, none⟩).outcomes ∧
      (Outcome.ok = Outcome.ok ∨ Outcome.ok = Outcome.skip)) ∧
      callsFor "a" (downloadAll netOk7 noFault noFault ["a"]
        (downloadAll netOk7 noFault noFault ["a"] ⟨stEmpty, none⟩).ms).outcomes = 0 :=
  ⟨⟨by decide, Or.inl rfl⟩,
    second_run_skips_ok_and_skip netOk7 netOk7 noFault noFault noFault noFault ["a"]
      ⟨stEmpty, none⟩ "a" Outcome.ok 1 (by decide) (Or.inl rfl)⟩

/-! ## Dedup under every completion order of two workers (C2)

Two workers race on byte-identical payloads.  A worker touches shared
state only at: the existing-file check (it reads its own destination,
which the sibling never writes because destination paths are injective in
the slug), the locked check-and-insert into the hash registry (source
lines 121-124, one atomic critical section), the payload write (line
126), and the locked log append (lines 130-132).  The model makes each of
these one atomic step of a scheduler-driven interleaving.  Failed network
attempts and backoff sleeps touch no shared state, so retrieval is one
step yielding the worker's eventual payload (the claim presumes both
payloads were downloaded). -/

inductive WStatus
  | pending
  | gotBody
  | inserted
  | written
  | doneOk
  | doneDedup
  | doneSkip
  deriving DecidableEq, Repr

structure Shared where
  fs : String → Option Payload
  log : List String
  seen : Finset Payload

/-- One atomic step of the worker fetching `slug`, whose downloaded
payload is `p`; a finished worker changes nothing. -/
def workerStep (slug : String) (p : Payload) : WStatus → Shared → WStatus × Shared
  | .pending, g =>
    if (g.fs (destPath slug)).isSome then (.doneSkip, g) else (.gotBody, g)
  | .gotBody, g =>
    if sha256 p ∈ g.seen then (.doneDedup, g)
    else (.inserted, { g with seen := insert (sha256 p) g.seen })
  | .inserted, g =>
    (.written, { g with fs := Function.update g.fs (destPath slug) (some p) })
  | .written, g => (.doneOk, { g with log := g.log ++ [slug] })
  | w, g => (w, g)

structure PairSys where
  wA : WStatus
  wB : WStatus
  g : Shared

/-- One scheduler choice: `true` steps worker A, `false` steps worker B. -/
def pairStep (a b : String) (pa pb : Payload) (who : Bool) (s : PairSys) : PairSys :=
  if who then
    let r := workerStep a pa s.wA s.g
    ⟨r.1, s.wB, r.2⟩
  else
    let r := workerStep b pb s.wB s.g
    ⟨s.wA, r.1, r.2⟩

def pairRun (a b : String) (pa pb : Payload) : List Bool → PairSys → PairSys
  | [], s => s
  | who :: rest, s => pairRun a b pa pb rest (pairStep a b pa pb who s)

/-- The worker has passed the check-and-insert critical section as its
winner (it inserted the digest). -/
def reachedIns : WStatus → Bool
  | .inserted | .written | .doneOk => true
  | _ => false

/-- The worker has written its payload file. -/
def reachedWr : WStatus → Bool
  | .written | .doneOk => true
  | _ => false

def isDone : WStatus → Bool
  | .doneOk | .doneDedup | .doneSkip => true
  | _ => false

/-- The reachability invariant of the two-worker race, for byte-identical
payloads `pa = pb` started with both destination files absent and the
digest not yet registered. -/
def PairInv (a b : String) (pa pb : Payload) (s : PairSys) : Prop :=
  ¬(reachedIns s.wA = true ∧ reachedIns s.wB = true) ∧
  (sha256 pa ∈ s.g.seen ↔ (reachedIns s.wA = true ∨ reachedIns s.wB = true)) ∧
  (s.wA = .doneDedup → reachedIns s.wB = true) ∧
  (s.wB = .doneDedup → reachedIns s.wA = true) ∧
  s.wA ≠ .doneSkip ∧
  s.wB ≠ .doneSkip ∧
  s.g.fs (destPath a) = (if reachedWr s.wA then some pa else none) ∧
  s.g.fs (destPath b) = (if reachedWr s.wB then some pb else none)


theorem pairInv_step (a b : String) (pa : Payload) (hab : a ≠ b)
    (who : Bool) (s : PairSys) (hinv : PairInv a b pa pa s) :
    PairInv a b pa pa (pairStep a b pa pa who s) := by
  obtain ⟨h1, h2, h3, h4, h5, h6, h7, h8⟩ := hinv
  have hd : destPath a ≠ destPath b := fun h => hab (destPath_inj a b h)
  cases who with
  | true =>
    rw [pairStep, if_pos rfl]
    cases hwA : s.wA with
    | pending =>
      have hfs : s.g.fs (destPath a) = none := by rw [h7, hwA]; rfl
      simp only [workerStep, hfs, Option.isSome_none, Bool.false_eq_true, if_false]
      try dsimp only
      rw [hwA] at h1 h2 h4 h7
      refine ⟨h1, h2, ?_, h4, ?_, h6, h7, h8⟩
      · exact fun hc => WStatus.noConfusion hc
      · exact fun hc => WStatus.noConfusion hc
    | gotBody =>
      simp only [workerStep]
      rw [hwA] at h1 h2 h4 h7
      by_cases hdup : sha256 pa ∈ s.g.seen
      · rw [if_pos hdup]
        try dsimp only
        have hIB : reachedIns s.wB = true := by
          rcases h2.mp hdup with hl | hr
          · exact Bool.noConfusion hl
          · exact hr
        refine ⟨?_, ?_, fun _ => hIB, ?_, ?_, h6, h7, h8⟩
        · rintro ⟨hc, -⟩
          exact Bool.noConfusion hc
        · exact iff_of_true hdup (Or.inr hIB)
        · exact fun hB => hB ▸ hIB
        · exact fun hc => WStatus.noConfusion hc
      · rw [if_neg hdup]
        try dsimp only
        have hnor : ¬(reachedIns WStatus.gotBody = true ∨ reachedIns s.wB = true) :=
          fun hor => hdup (h2.mpr hor)
        refine ⟨?_, ?_, ?_, fun _ => rfl, ?_, h6, h7, h8⟩
        · rintro ⟨-, hB⟩
          exact hnor (Or.inr hB)
        · exact iff_of_true (Finset.mem_insert_self _ _) (Or.inl rfl)
        · exact fun hc => WStatus.noConfusion hc
        · exact fun hc => WStatus.noConfusion hc
    | inserted =>
      simp only [workerStep]
      try dsimp only
      rw [hwA] at h1 h2 h4 h7
      refine ⟨h1, h2, ?_, h4, ?_, h6, ?_, ?_⟩
      · exact fun hc => WStatus.noConfusion hc
      · exact fun hc => WStatus.noConfusion hc
      · show Function.update s.g.fs (destPath a) (some pa) (destPath a) =
          (if reachedWr WStatus.written = true then some pa else none)
        rw [Function.update_same]
        rfl
      · show Function.update s.g.fs (destPath a) (some pa) (destPath b) =
          (if reachedWr s.wB = true then some pa else none)
        rw [Function.update_noteq (Ne.symm hd)]
        exact h8
    | written =>
      simp only [workerStep]
      try dsimp only
      rw [hwA] at h1 h2 h4 h7
      refine ⟨h1, h2, ?_, h4, ?_, h6, h7, h8⟩
      · exact fun hc => WStatus.noConfusion hc
      · exact fun hc => WStatus.noConfusion hc
    | doneOk =>
      simp only [workerStep]
      try dsimp only
      rw [hwA] at h1 h2 h3 h4 h5 h7
      exact ⟨h1, h2, h3, h4, h5, h6, h7, h8⟩
    | doneDedup =>
      simp only [workerStep]
      try dsimp only
      rw [hwA] at h1 h2 h3 h4 h5 h7
      exact ⟨h1, h2, h3, h4, h5, h6, h7, h8⟩
    | doneSkip =>
      exact absurd hwA h5
  | false =>
    rw [pairStep, if_neg Bool.false_ne_true]
    cases hwB : s.wB with
    | pending =>
      have hfs : s.g.fs (destPath b) = none := by rw [h8, hwB]; rfl
      simp only [workerStep, hfs, Option.isSome_none, Bool.false_eq_true, if_false]
      try dsimp only
      rw [hwB] at h1 h2 h3 h8
      refine ⟨h1, h2, h3, ?_, h5, ?_, h7, h8⟩
      · exact fun hc => WStatus.noConfusion hc
      · exact fun hc => WStatus.noConfusion hc
    | gotBody =>
      simp only [workerStep]
      rw [hwB] at h1 h2 h3 h8
      by_cases hdup : sha256 pa ∈ s.g.seen
      · rw [if_pos hdup]
        try dsimp only
        have hIA : reachedIns s.wA = true := by
          rcases h2.mp hdup with hl | hr
          · exact hl
          · exact Bool.noConfusion hr
        refine ⟨?_, ?_, ?_, fun _ => hIA, h5, ?_, h7, h8⟩
        · rintro ⟨-, hc⟩
          exact Bool.noConfusion hc
        · exact iff_of_true hdup (Or.inl hIA)
        · exact fun hA => hA ▸ hIA
        · exact fun hc => WStatus.noConfusion hc
      · rw [if_neg hdup]
        try dsimp only
        have hnor : ¬(reachedIns s.wA = true ∨ reachedIns WStatus.gotBody = true) :=
          fun hor => hdup (h2.mpr hor)
        refine ⟨?_, ?_, fun _ => rfl, ?_, h5, ?_, h7, h8⟩
        · rintro ⟨hA, -⟩
          exact hnor (Or.inl hA)
        · exact iff_of_true (Finset.mem_insert_self _ _) (Or.inr rfl)
        · exact fun hc => WStatus.noConfusion hc
        · exact fun hc => WStatus.noConfusion hc
    | inserted =>
      simp only [workerStep]
      try dsimp only
      rw [hwB] at h1 h2 h3 h8
      refine ⟨h1, h2, h3, ?_, h5, ?_, ?_, ?_⟩
      · exact fun hc => WStatus.noConfusion hc
      · exact fun hc => WStatus.noConfusion hc
      · show Function.update s.g.fs (destPath b) (some pa) (destPath a) =
          (if reachedWr s.wA = true then some pa else none)
        rw [Function.update_noteq hd]
        exact h7
      · show Function.update s.g.fs (destPath b) (some pa) (destPath b) =
          (if reachedWr WStatus.written = true then some pa else none)
        rw [Function.update_same]
        rfl
    | written =>
      simp only [workerStep]
      try dsimp only
      rw [hwB] at h1 h2 h3 h8
      refine ⟨h1, h2, h3, ?_, h5, ?_, h7, h8⟩
      · exact fun hc => WStatus.noConfusion hc
      · exact fun hc => WStatus.noConfusion hc
    | doneOk =>
      simp only [workerStep]
      try dsimp only
      rw [hwB] at h1 h2 h3 h4 h6 h8
      exact ⟨h1, h2, h3, h4, h5, h6, h7, h8⟩
    | doneDedup =>
      simp only [workerStep]
      try dsimp only
      rw [hwB] at h1 h2 h3 h4 h6 h8
      exact ⟨h1, h2, h3, h4, h5, h6, h7, h8⟩
    | doneSkip =>
      exact absurd hwB h6

theorem pairInv_run (a b : String) (pa : Payload) (hab : a ≠ b) :
    ∀ (sched : List Bool) (s : PairSys), PairInv a b pa pa s →
      PairInv a b pa pa (pairRun a b pa pa sched s) := by
  intro sched
  induction sched with
  | nil => intro s h; exact h
  | cons who rest ih =>
    intro s h
    exact ih _ (pairInv_step a b pa hab who s h)

theorem pairInv_final (a b : String) (pa : Payload) (s : PairSys)
    (hinv : PairInv a b pa pa s) (hdA : isDone s.wA = true) (hdB : isDone s.wB = true) :
    (s.wA = .doneOk ∧ s.wB = .doneDedup ∧ s.g.fs (destPath a) = some pa ∧
        s.g.fs (destPath b) = none) ∨
      (s.wB = .doneOk ∧ s.wA = .doneDedup ∧ s.g.fs (destPath b) = some pa ∧
        s.g.fs (destPath a) = none) := by
  obtain ⟨h1, h2, h3, h4, h5, h6, h7, h8⟩ := hinv
  cases hwA : s.wA with
  | pending => rw [hwA] at hdA; exact Bool.noConfusion hdA
  | gotBody => rw [hwA] at hdA; exact Bool.noConfusion hdA
  | inserted => rw [hwA] at hdA; exact Bool.noConfusion hdA
  | written => rw [hwA] at hdA; exact Bool.noConfusion hdA
  | doneSkip => exact absurd hwA h5
  | doneOk =>
    cases hwB : s.wB with
    | pending => rw [hwB] at hdB; exact Bool.noConfusion hdB
    | gotBody => rw [hwB] at hdB; exact Bool.noConfusion hdB
    | inserted => rw [hwB] at hdB; exact Bool.noConfusion hdB
    | written => rw [hwB] at hdB; exact Bool.noConfusion hdB
    | doneSkip => exact absurd hwB h6
    | doneOk =>
      rw [hwA, hwB] at h1
      exact absurd ⟨rfl, rfl⟩ h1
    | doneDedup =>
      left
      refine ⟨rfl, rfl, ?_, ?_⟩
      · rw [h7, hwA]; rfl
      · rw [h8, hwB]; rfl
  | doneDedup =>
    cases hwB : s.wB with
    | pending => rw [hwB] at hdB; exact Bool.noConfusion hdB
    | gotBody => rw [hwB] at hdB; exact Bool.noConfusion hdB
    | inserted => rw [hwB] at hdB; exact Bool.noConfusion hdB
    | written => rw [hwB] at hdB; exact Bool.noConfusion hdB
    | doneSkip => exact absurd hwB h6
    | doneOk =>
      right
      refine ⟨rfl, rfl, ?_, ?_⟩
      · rw [h8, hwB]; rfl
      · rw [h7, hwA]; rfl
    | doneDedup =>
      rw [hwA] at h3
      have := h3 rfl
      rw [hwB] at this
      exact Bool.noConfusion this

/-- C2: two distinct identifiers whose downloaded payloads are
byte-identical, with neither file pre-existing and the digest not yet
registered, produce — under every completion order of the two workers
(every scheduler interleaving that runs both to completion) — exactly one
`ok` and one `dedup`, and a payload file exists only at the `ok` winner's
destination, so at most one file is written for the pair. -/
theorem pair_dedup_exactly_one_ok (a b : String) (pa pb : Payload)
    (fs0 : String → Option Payload) (log0 : List String) (seen0 : Finset Payload)
    (sched : List Bool)
    (hab : a ≠ b) (hp : pa = pb)
    (hfa : fs0 (destPath a) = none) (hfb : fs0 (destPath b) = none)
    (hseen : sha256 pa ∉ seen0)
    (hdA : isDone (pairRun a b pa pb sched ⟨.pending, .pending, fs0, log0, seen0⟩).wA =
      true)
    (hdB : isDone (pairRun a b pa pb sched ⟨.pending, .pending, fs0, log0, seen0⟩).wB =
      true) :
    ((pairRun a b pa pb sched ⟨.pending, .pending, fs0, log0, seen0⟩).wA = .doneOk ∧
        (pairRun a b pa pb sched ⟨.pending, .pending, fs0, log0, seen0⟩).wB = .doneDedup ∧
        (pairRun a b pa pb sched ⟨.pending, .pending, fs0, log0, seen0⟩).g.fs
          (destPath a) = some pa ∧
        (pairRun a b pa pb sched ⟨.pending, .pending, fs0, log0, seen0⟩).g.fs
          (destPath b) = none) ∨
      ((pairRun a b pa pb sched ⟨.pending, .pending, fs0, log0, seen0⟩).wB = .doneOk ∧
        (pairRun a b pa pb sched ⟨.pending, .pending, fs0, log0, seen0⟩).wA = .doneDedup ∧
        (pairRun a b pa pb sched ⟨.pending, .pending, fs0, log0, seen0⟩).g.fs
          (destPath b) = some pa ∧
        (pairRun a b pa pb sched ⟨.pending, .pending, fs0, log0, seen0⟩).g.fs
          (destPath a) = none) := by
  subst hp
  have hinv0 : PairInv a b pa pa ⟨.pending, .pending, fs0, log0, seen0⟩ := by
    refine ⟨?_, ?_, ?_, ?_, ?_, ?_, ?_, ?_⟩
    · rintro ⟨hc, -⟩
      exact Bool.noConfusion hc
    · constructor
      · intro hm
        exact absurd hm hseen
      · rintro (hc | hc) <;> exact Bool.noConfusion hc
    · exact fun hc => WStatus.noConfusion hc
    · exact fun hc => WStatus.noConfusion hc
    · exact fun hc => WStatus.noConfusion hc
    · exact fun hc => WStatus.noConfusion hc
    · exact hfa
    · exact hfb
  exact pairInv_final a b pa _ (pairInv_run a b pa hab sched _ hinv0) hdA hdB

theorem pair_dedup_exactly_one_ok_witness :
    ((pairRun "a" "b" [7] [7] [true, true, true, true, false, false]
          ⟨.pending, .pending, fun _ => none, [], ∅⟩).wA = .doneOk ∧
        (pairRun "a" "b" [7] [7] [true, true, true, true, false, false]
          ⟨.pending, .pending, fun _ => none, [], ∅⟩).wB = .doneDedup ∧
        (pairRun "a" "b" [7] [7] [true, true, true, true, false, false]
          ⟨.pending, .pending, fun _ => none, [], ∅⟩).g.fs (destPath "a") = some [7] ∧
        (pairRun "a" "b" [7] [7] [true, true, true, true, false, false]
          ⟨.pending, .pending, fun _ => none, [], ∅⟩).g.fs (destPath "b") = none) ∨
      ((pairRun "a" "b" [7] [7] [true, true, true, true, false, false]
          ⟨.pending, .pending, fun _ => none, [], ∅⟩).wB = .doneOk ∧
        (pairRun "a" "b" [7] [7] [true, true, true, true, false, false]
          ⟨.pending, .pending, fun _ => none, [], ∅⟩).wA = .doneDedup ∧
        (pairRun "a" "b" [7] [7] [true, true, true, true, false, false]
          ⟨.pending, .pending, fun _ => none, [], ∅⟩).g.fs (destPath "b") = some [7] ∧
        (pairRun "a" "b" [7] [7] [true, true, true, true, false, false]
          ⟨.pending, .pending, fun _ => none, [], ∅⟩).g.fs (destPath "a") = none) :=
  pair_dedup_exactly_one_ok "a" "b" [7] [7] (fun _ => none) [] ∅
    [true, true, true, true, false, false] (by decide) rfl rfl rfl (by decide)
    (by decide) (by decide)

end Piixes
